import Mathlib

/-!
Verification of the GTNH recipe calculator core logic.

The definitions below are a shallow embedding of the Python sources:
the module logic.py (variant selection and raw-material resolution),
the embedded recursive component walk of gui.py, and the craft commit
of inventory_gui.py.  Python dictionaries from item names to integer
quantities become association lists, Python ints become Int, and the
unbounded recursion of the resolver becomes a fuel-indexed recursion
whose state records whether fuel ever ran out (ok = false models a
run the Python program would not have completed at that depth).
-/

set_option maxHeartbeats 1600000

namespace GTNH

/-- Item names are plain strings, as in the Python sources. -/
abbrev Item := String

/-- A quantity map: the embedding of a Python dict from names to ints,
as an insertion-ordered association list. -/
abbrev QMap := List (Item × Int)

/-- Lookup in a quantity map: first entry with the given key. -/
def lookupOpt : QMap → Item → Option Int
  | [], _ => none
  | p :: rest, k => if p.1 = k then some p.2 else lookupOpt rest k

/-- Lookup with a default, the embedding of dict.get(k, d). -/
def lookupD (m : QMap) (k : Item) (d : Int) : Int :=
  (lookupOpt m k).getD d

/-- Key update, the embedding of d[k] = v: replace in place, else append. -/
def setK : QMap → Item → Int → QMap
  | [], k, v => [(k, v)]
  | p :: rest, k, v => if p.1 = k then (k, v) :: rest else p :: setK rest k v

/-- Key removal, the embedding of del d[k]. -/
def eraseK : QMap → Item → QMap
  | [], _ => []
  | p :: rest, k => if p.1 = k then rest else p :: eraseK rest k

/-- Accumulating update, the embedding of d[k] = d.get(k, 0) + v. -/
def addK (m : QMap) (k : Item) (v : Int) : QMap :=
  setK m k (lookupD m k 0 + v)

/-- A recipe dict from recipes.json: the non-underscore keys are the flat
component map, and the optional underscore fields carry metadata, exactly
the shape logic.py reads. -/
structure Recipe where
  components : QMap
  inputsOpt : Option QMap := none
  outputs : QMap := []
  tags : Option (List String) := none
  machine : Option String := none
  rtype : Option String := none
deriving DecidableEq

/-- A store entry is either a single recipe dict or a list of variants,
the two shapes recipes.json allows. -/
inductive Entry where
  | single (r : Recipe)
  | variants (rs : List Recipe)
deriving DecidableEq

/-- The recipe database: item name to entry, insertion ordered. -/
abbrev Store := List (Item × Entry)

/-- Lookup an item in the store, the embedding of recipes.get(name). -/
def storeGet : Store → Item → Option Entry
  | [], _ => none
  | p :: rest, k => if p.1 = k then some p.2 else storeGet rest k

deriving instance DecidableEq for Except

/-- The fixed tier vocabulary tag_order of logic.py line 68. -/
def tag_order : List String :=
  ["Any", "Steam", "LV", "MV", "HV", "EV", "IV", "LuV", "ZPN", "UV",
   "UHV", "UEV", "UIV", "UMV", "UXV", "MAX"]

/-- First index of an element in a list, the embedding of list.index
(returning none where Python raises ValueError). -/
def idxOf? (t : String) : List String → Option Nat
  | [] => none
  | s :: rest => if s = t then some 0 else (idxOf? t rest).map (· + 1)

/-- Index of a recognized tag as an Int, with -1 for unrecognized tags. -/
def tagIdxI (t : String) : Int :=
  match idxOf? t tag_order with
  | some n => (n : Int)
  | none => -1

/-- One step of the per-variant tag scan (logic.py lines 80-85): keep
the highest recognized tag seen so far. -/
def scoreStep (acc : Int × Option String) (tag : String) : Int × Option String :=
  match idxOf? tag tag_order with
  | some idx => if (idx : Int) > acc.1 then ((idx : Int), some tag) else acc
  | none => acc

/-- The inner loop of get_best_recipe (logic.py lines 80-85): the highest
recognized tag of one variant, as a pair of its index (-1 when no tag is
recognized) and the tag itself. -/
def recipeScoreTag (r : Recipe) : Int × Option String :=
  (r.tags.getD []).foldl scoreStep (-1, none)

/-- The score of a variant: the index of its highest recognized tag. -/
def rScore (r : Recipe) : Int := (recipeScoreTag r).1

/-- One step of the selection fold of get_best_recipe (lines 87-90). -/
def bestStep (maxIdx : Int) (acc : Option Recipe × Int × Option String)
    (r : Recipe) : Option Recipe × Int × Option String :=
  if rScore r ≤ maxIdx ∧ rScore r > acc.2.1
  then (some r, rScore r, (recipeScoreTag r).2)
  else acc

/-- The embedding of get_best_recipe (logic.py lines 60-92).  The error
value models the ValueError raised by tag_order.index(tech_level) when
the tech level is not in the vocabulary; that lookup only runs when the
entry is a list of variants. -/
def get_best_recipe (name : Item) (recipes : Store) (techLevel : String) :
    Except Unit (Option Recipe × Option String) :=
  match storeGet recipes name with
  | none => .ok (none, none)
  | some (.single r) => .ok (some r, some "Any")
  | some (.variants rs) =>
    match idxOf? techLevel tag_order with
    | none => .error ()
    | some maxIdx =>
      let best := rs.foldl (bestStep (maxIdx : Int)) (none, -1, none)
      .ok (best.1, best.2.2)

/-- The tier-order index of the matched tag a selector query returns,
with -1 when the query returns no tag (not-found items, variant lists
with no selectable variant, or an error result). -/
def matchedTagIdx (recipes : Store) (item tier : String) : Int :=
  match get_best_recipe item recipes tier with
  | .ok (_, some t) => tagIdxI t
  | _ => -1

/-- Ceiling division of integers, the value Python computes as
ceil(remaining / output_count) for a positive divisor. -/
def ceilDivQ (a b : Int) : Int := -((-a) / b)

/-- The per-item recipe lookup the resolver performs (logic.py lines
162-164 and gui.py lines 368-371): fetch the entry and, when it is a
list, take its first element, ignoring the tech level entirely. -/
def resolverEntry (recipes : Store) (item : Item) : Option Recipe :=
  match storeGet recipes item with
  | none => none
  | some (.single r) => some r
  | some (.variants rs) => rs.head?

/-- Whether a key starts with the underscore sigil, the embedding of
k.startswith applied to the metadata marker. -/
def underscored (s : String) : Bool :=
  match s.data with
  | [] => false
  | c :: _ => c = '_'

/-- The leaf test of the resolver (logic.py line 172): an entry whose
keys all start with an underscore, which also covers the empty dict. -/
def isRawEntry (r : Recipe) : Bool :=
  r.components.all (fun p => underscored p.1)

/-- The effective input map of a recipe: the _inputs field when present,
else the flat dict itself (entry.get with the _inputs key). -/
def effInputs (r : Recipe) : QMap := r.inputsOpt.getD r.components

/-- The child demands one craft batch generates: every non-underscore
input key, scaled by the craft count, in iteration order. -/
def childTasks (r : Recipe) (crafts : Int) : List (Item × Int) :=
  ((effInputs r).filter (fun p => ¬ underscored p.1)).map
    (fun p => (p.1, p.2 * crafts))

/-- State of one raw-mode resolution pass: the raw_needed accumulator,
the mutable working inventory, and a flag that stays true exactly when
the fuel bound never interrupted the traversal. -/
structure RawState where
  raw : QMap
  inv : QMap
  ok : Bool
deriving DecidableEq

/-- The recursive engine of calculate_raw_materials (logic.py lines
161-187), run over an explicit worklist of pending (item, quantity)
sibling demands; fuel decreases on every call, so a run with ok = true
is exactly a run the unbounded Python recursion performs. -/
def runRaw (recipes : Store) : Nat → List (Item × Int) → RawState → RawState
  | _, [], s => s
  | 0, _ :: _, s => { s with ok := false }
  | fuel + 1, (item, qty) :: rest, s =>
    let entry := resolverEntry recipes item
    let haveQ := lookupD s.inv item 0
    let remaining := max 0 (qty - haveQ)
    let inv1 := setK s.inv item (max 0 (haveQ - qty))
    match entry with
    | none =>
      runRaw recipes fuel rest { s with raw := addK s.raw item qty, inv := inv1 }
    | some r =>
      if isRawEntry r then
        runRaw recipes fuel rest { s with raw := addK s.raw item qty, inv := inv1 }
      else
        let outputCount := lookupD r.outputs item 1
        let crafts := ceilDivQ remaining outputCount
        let s2 := runRaw recipes fuel (childTasks r crafts) { s with inv := inv1 }
        runRaw recipes fuel rest s2
termination_by structural fuel _ => fuel

/-- The embedding of calculate_raw_materials (logic.py lines 155-188),
with an explicit fuel bound in place of unbounded recursion. -/
def calculate_raw_materials (recipes : Store) (fuel : Nat) (name : Item)
    (quantity : Int) (inventory : QMap) : RawState :=
  runRaw recipes fuel [(name, quantity)] { raw := [], inv := inventory, ok := true }

/-- State of one full-mode pass (collect_components in gui.py): the
component_totals accumulator, the working inventory, the list of items
visited in order, and the fuel flag. -/
structure FullState where
  totals : QMap
  inv : QMap
  visited : List Item
  ok : Bool
deriving DecidableEq

/-- The recursive walk of collect_components (gui.py lines 366-399):
every visited item is recorded in component_totals before the
fully-satisfied and leaf early returns, and recursion descends into the
scaled inputs otherwise. -/
def runFull (recipes : Store) : Nat → List (Item × Int) → FullState → FullState
  | _, [], s => s
  | 0, _ :: _, s => { s with ok := false }
  | fuel + 1, (item, qty) :: rest, s =>
    let entry := resolverEntry recipes item
    let haveQ := lookupD s.inv item 0
    let remaining := max 0 (qty - haveQ)
    let inv1 := setK s.inv item (max 0 (haveQ - qty))
    let tot1 := addK s.totals item qty
    let s1 : FullState :=
      { s with totals := tot1, inv := inv1, visited := s.visited ++ [item] }
    if remaining = 0 then
      runFull recipes fuel rest s1
    else
      match entry with
      | none => runFull recipes fuel rest s1
      | some r =>
        if isRawEntry r then
          runFull recipes fuel rest s1
        else
          let outputCount := lookupD r.outputs item 1
          let crafts := ceilDivQ remaining outputCount
          let s2 := runFull recipes fuel (childTasks r crafts) s1
          runFull recipes fuel rest s2
termination_by structural fuel _ => fuel

/-- The embedding of the full-mode breakdown collect_components of
gui.py lines 360-401, started on the root demand. -/
def collect_components (recipes : Store) (fuel : Nat) (name : Item)
    (quantity : Int) (inventory : QMap) : FullState :=
  runFull recipes fuel [(name, quantity)]
    { totals := [], inv := inventory, visited := [], ok := true }

/-- Result of a craft commit, mirroring the control flow of craft_item
in inventory_gui.py lines 278-366.  The keyError constructor marks the
in-place deduction hitting a key absent from the inventory dict, which
Python would raise as KeyError (reachable only for non-positive
required amounts). -/
inductive CraftResult where
  | noRecipe
  | noVariant
  | notAnOutput
  | missing (shortfalls : List (Item × Int × Int))
  | keyError
  | ok (inv : QMap)
deriving DecidableEq

/-- The variant list of an entry, as craft_item normalizes it. -/
def entryVariants : Entry → List Recipe
  | .single r => [r]
  | .variants rs => rs

/-- The requirement map craft_item builds: non-underscore inputs scaled
by the craft count. -/
def requiredOf (r : Recipe) (crafts : Int) : QMap := childTasks r crafts

/-- The shortfall report: every required item whose holding is below the
need, as (item, needed, available). -/
def shortfalls (required : QMap) (inventory : QMap) : List (Item × Int × Int) :=
  (required.filter (fun p => lookupD inventory p.1 0 < p.2)).map
    (fun p => (p.1, p.2, lookupD inventory p.1 0))

/-- One deduction step of craft_item (lines 352-355): inventory[k] -= v,
removing the entry when it drops to zero or below; reading an absent key
is the KeyError case. -/
def deductOne (inv : QMap) (p : Item × Int) : Option QMap :=
  match lookupOpt inv p.1 with
  | none => none
  | some hv =>
    let nv := hv - p.2
    some (if nv ≤ 0 then eraseK inv p.1 else setK inv p.1 nv)

/-- The crediting loop of craft_item (lines 357-360): every declared
output is added, scaled by the craft count. -/
def creditOutputs (outputs : QMap) (crafts : Int) (inv : QMap) : QMap :=
  outputs.foldl (fun acc p => setK acc p.1 (lookupD acc p.1 0 + p.2 * crafts)) inv

/-- The embedding of craft_item (inventory_gui.py lines 278-366) from
the point where the item name and selected tag are known: find the
variant whose tags contain the selected tag, require the item among its
outputs, size the batch by ceiling division, then either report every
shortfall with no inventory change or commit the whole transaction. -/
def craft_item (recipes : Store) (inventory : QMap) (item : Item)
    (qty : Int) (selectedTag : String) : CraftResult :=
  match storeGet recipes item with
  | none => .noRecipe
  | some e =>
    match (entryVariants e).find? (fun r => (r.tags.getD []).contains selectedTag) with
    | none => .noVariant
    | some recipe =>
      match lookupOpt recipe.outputs item with
      | none => .notAnOutput
      | some outputCount =>
        let crafts := ceilDivQ qty outputCount
        let required := requiredOf recipe crafts
        let short := shortfalls required inventory
        if short ≠ [] then .missing short
        else
          match required.foldlM deductOne inventory with
          | none => .keyError
          | some inv1 => .ok (creditOutputs recipe.outputs crafts inv1)

/-! Concrete data used by the scenario claims: the plank recipe of the
spec scenarios, the two-variant gear item, and a two-item recipe cycle. -/

/-- The plank recipe of the spec scenarios: outputs plank times 4 from
one log. -/
def plankRecipe : Recipe :=
  { components := [("log", 1)], outputs := [("plank", 4)], tags := some ["Any"] }

/-- A store holding exactly the plank recipe. -/
def plankStore : Store := [("plank", .single plankRecipe)]

/-- The gear variant tagged Any only. -/
def gearAnyVariant : Recipe :=
  { components := [("iron", 1)], outputs := [("gear", 1)], tags := some ["Any"] }

/-- The gear variant tagged Any and MV. -/
def gearMVVariant : Recipe :=
  { components := [("steel", 1)], outputs := [("gear", 1)], tags := some ["Any", "MV"] }

/-- A store holding the two gear variants in insertion order. -/
def gearStore : Store := [("gear", .variants [gearAnyVariant, gearMVVariant])]

/-- Recipe of item A in the cyclic store: one A from one B. -/
def cycleRecipeA : Recipe :=
  { components := [("B", 1)], outputs := [("A", 1)], tags := some ["Any"] }

/-- Recipe of item B in the cyclic store: one B from one A. -/
def cycleRecipeB : Recipe :=
  { components := [("A", 1)], outputs := [("B", 1)], tags := some ["Any"] }

/-- The cyclic store of the spec scenario: A requires B and B requires A. -/
def cycleStore : Store := [("A", .single cycleRecipeA), ("B", .single cycleRecipeB)]

/-! Small helper lemmas about the vocabulary index. -/

/-- idxOf? returns none exactly on elements absent from the list. -/
theorem idxOf?_eq_none_iff (t : String) (l : List String) :
    idxOf? t l = none ↔ t ∉ l := by
  induction l with
  | nil => simp [idxOf?]
  | cons s rest ih =>
    by_cases h : s = t
    · subst h
      simp [idxOf?]
    · have hts : ¬ t = s := fun he => h he.symm
      simp [idxOf?, if_neg h, Option.map_eq_none', ih, hts]

end GTNH

namespace GTNH

/-- C1: for the store holding exactly the plank recipe (outputs plank
times 4, inputs one log), resolving 10 plank with an empty inventory
yields the raw demand log maps to 3, and with inventory plank maps to 2
it yields log maps to 2; both runs complete within the fuel bound, so
they are exactly what the Python recursion computes. -/
theorem claim_C1_plank_scenarios :
    (calculate_raw_materials plankStore 10 "plank" 10 []).raw = [("log", 3)]
    ∧ (calculate_raw_materials plankStore 10 "plank" 10 []).ok = true
    ∧ (calculate_raw_materials plankStore 10 "plank" 10 [("plank", 2)]).raw = [("log", 2)]
    ∧ (calculate_raw_materials plankStore 10 "plank" 10 [("plank", 2)]).ok = true := by
  refine ⟨?_, ?_, ?_, ?_⟩ <;> decide

/-- C2 counterexample: for the gear store with variants tagged Any and
Any-MV, at tier MV the variant selector picks the MV variant while the
resolver per-item lookup uses the first stored variant, and the two
recipes differ; so the resolver does not agree with get_best_recipe for
every store and tier. -/
theorem claim_C2_counterexample :
    resolverEntry gearStore "gear" = some gearAnyVariant
    ∧ get_best_recipe "gear" gearStore "MV"
        = Except.ok (some gearMVVariant, some "MV")
    ∧ gearAnyVariant ≠ gearMVVariant := by
  refine ⟨by decide, ?_, by decide⟩
  decide

/-- C2 amended: the resolver per-item lookup takes the first stored
variant and ignores the tier; it agrees with the variant selector
whenever the visited item is stored as a single recipe dict, in which
case both produce that dict (the selector pairing it with tag Any). -/
theorem claim_C2_amended (recipes : Store) (item : Item) (tier : String)
    (r : Recipe) (h : storeGet recipes item = some (.single r)) :
    get_best_recipe item recipes tier = Except.ok (some r, some "Any")
    ∧ resolverEntry recipes item = some r := by
  constructor
  · simp [get_best_recipe, h]
  · simp [resolverEntry, h]

/-- C2 amended witness: the single-dict agreement at the plank store. -/
theorem claim_C2_amended_witness :
    get_best_recipe "plank" plankStore "MV" = Except.ok (some plankRecipe, some "Any")
    ∧ resolverEntry plankStore "plank" = some plankRecipe :=
  claim_C2_amended plankStore "plank" "MV" plankRecipe (by decide)

/-- C3 counterexample: in full mode on the plank store, requesting 10
plank with an empty inventory records the root item plank itself with
its requested demand 10 in the aggregate, so the full-mode aggregate
does not exclude the root item. -/
theorem claim_C3_counterexample :
    lookupOpt (collect_components plankStore 10 "plank" 10 []).totals "plank"
      = some 10 := by
  decide

/-- C9: batch sizing never under-produces: the craft count the resolver
computes by ceiling division, multiplied by the output count, covers the
remaining demand whenever the demand is non-negative and the output
count is at least one. -/
theorem claim_C9_ceil_no_underproduction (remaining outputCount : Int)
    (_hr : 0 ≤ remaining) (hc : 1 ≤ outputCount) :
    remaining ≤ ceilDivQ remaining outputCount * outputCount := by
  unfold ceilDivQ
  have hne : outputCount ≠ 0 := by omega
  have h1 := Int.ediv_add_emod (-remaining) outputCount
  have h2 := Int.emod_nonneg (-remaining) hne
  nlinarith [h1, h2]

/-- C9 witness: the spec scenario numbers, remaining 8 at output count
4 gives 2 crafts and 8 produced. -/
theorem claim_C9_witness : (8 : Int) ≤ ceilDivQ 8 4 * 4 :=
  claim_C9_ceil_no_underproduction 8 4 (by decide) (by decide)

/-- C10: when an item is stored as a list of variants and the queried
tech level is outside the fixed tier vocabulary, get_best_recipe runs
tag_order.index on it and raises ValueError (the error result) instead
of returning a not-found pair. -/
theorem claim_C10_invalid_tier_errors (recipes : Store) (item tier : String)
    (rs : List Recipe) (hstore : storeGet recipes item = some (.variants rs))
    (htier : tier ∉ tag_order) :
    get_best_recipe item recipes tier = Except.error () := by
  have hidx : idxOf? tier tag_order = none := (idxOf?_eq_none_iff tier tag_order).mpr htier
  simp [get_best_recipe, hstore, hidx]

/-- C10 witness: the gear store queried at the unrecognized tier XX. -/
theorem claim_C10_witness : get_best_recipe "gear" gearStore "XX" = Except.error () :=
  claim_C10_invalid_tier_errors gearStore "gear" "XX" [gearAnyVariant, gearMVVariant]
    (by decide) (by decide)

/-! Characterization of the selection fold of get_best_recipe. -/

/-- The tag scan never decreases its running score. -/
theorem scoreStep_fst_le (acc : Int × Option String) (t : String) :
    acc.1 ≤ (scoreStep acc t).1 := by
  unfold scoreStep
  cases h : idxOf? t tag_order with
  | none => exact le_refl _
  | some idx =>
    dsimp only
    by_cases hgt : (idx : Int) > acc.1
    · rw [if_pos hgt]
      exact le_of_lt hgt
    · rw [if_neg hgt]

/-- The whole tag scan never decreases the starting score. -/
theorem foldl_scoreStep_fst_le (l : List String) (acc : Int × Option String) :
    acc.1 ≤ (l.foldl scoreStep acc).1 := by
  induction l generalizing acc with
  | nil => exact le_refl _
  | cons t rest ih =>
    rw [List.foldl_cons]
    exact le_trans (scoreStep_fst_le acc t) (ih (scoreStep acc t))

/-- A variant score is never below -1. -/
theorem rScore_ge_neg_one (r : Recipe) : -1 ≤ rScore r :=
  foldl_scoreStep_fst_le (r.tags.getD []) (-1, none)

/-- When the tag scan ends non-negative, its tag component is a tag of
exactly that tier index. -/
theorem foldl_scoreStep_tag_spec (l : List String) (acc : Int × Option String)
    (hacc : 0 ≤ acc.1 → ∃ t, acc.2 = some t ∧ tagIdxI t = acc.1) :
    0 ≤ (l.foldl scoreStep acc).1 →
      ∃ t, (l.foldl scoreStep acc).2 = some t
        ∧ tagIdxI t = (l.foldl scoreStep acc).1 := by
  induction l generalizing acc with
  | nil => exact hacc
  | cons tg rest ih =>
    rw [List.foldl_cons]
    apply ih
    unfold scoreStep
    cases h : idxOf? tg tag_order with
    | none => exact hacc
    | some idx =>
      dsimp only
      by_cases hgt : (idx : Int) > acc.1
      · rw [if_pos hgt]
        intro _
        refine ⟨tg, rfl, ?_⟩
        unfold tagIdxI
        rw [h]
      · rw [if_neg hgt]
        exact hacc

/-- The matched tag of a variant with non-negative score has tier index
equal to that score. -/
theorem recipeScoreTag_tag_spec (r : Recipe) (h : 0 ≤ rScore r) :
    ∃ t, (recipeScoreTag r).2 = some t ∧ tagIdxI t = rScore r :=
  foldl_scoreStep_tag_spec (r.tags.getD []) (-1, none)
    (fun h0 => absurd h0 (by decide)) h

/-- Full characterization of the selection fold of get_best_recipe from
an arbitrary accumulator: either no variant is ever selected, or the
result is the first variant attaining the maximal eligible score above
the starting score. -/
theorem bestFold_spec (maxIdx : Int) (rs : List Recipe) (b : Option Recipe)
    (sc : Int) (tg : Option String) (hsc : -1 ≤ sc) :
    (rs.foldl (bestStep maxIdx) (b, sc, tg) = (b, sc, tg)
      ∧ ∀ r ∈ rs, ¬(rScore r ≤ maxIdx ∧ sc < rScore r))
    ∨ (∃ l₁ rsel l₂,
        rs = l₁ ++ rsel :: l₂
        ∧ rs.foldl (bestStep maxIdx) (b, sc, tg)
            = (some rsel, rScore rsel, (recipeScoreTag rsel).2)
        ∧ rScore rsel ≤ maxIdx ∧ sc < rScore rsel
        ∧ (∀ r ∈ l₁, ¬(rScore r ≤ maxIdx ∧ rScore rsel ≤ rScore r))
        ∧ (∀ r ∈ l₂, ¬(rScore r ≤ maxIdx ∧ rScore rsel < rScore r))) := by
  induction rs generalizing b sc tg with
  | nil => exact Or.inl ⟨rfl, by simp⟩
  | cons r rest ih =>
    rw [List.foldl_cons]
    by_cases hsel : rScore r ≤ maxIdx ∧ rScore r > sc
    · have hstep : bestStep maxIdx (b, sc, tg) r
          = (some r, rScore r, (recipeScoreTag r).2) := by
        unfold bestStep
        rw [if_pos hsel]
      rw [hstep]
      rcases ih (some r) (rScore r) ((recipeScoreTag r).2) (rScore_ge_neg_one r) with
        ⟨heq, hall⟩ | ⟨l₁, rsel, l₂, hsplit, heq, hle, hlt, hl₁, hl₂⟩
      · refine Or.inr ⟨[], r, rest, by simp, heq, hsel.1, hsel.2, by simp, ?_⟩
        intro r' hr'
        exact hall r' hr'
      · refine Or.inr ⟨r :: l₁, rsel, l₂, by simp [hsplit], heq, hle,
          lt_trans hsel.2 hlt, ?_, hl₂⟩
        intro r' hr'
        rcases List.mem_cons.mp hr' with h | h
        · subst h
          intro hc
          exact absurd hc.2 (not_le.mpr hlt)
        · exact hl₁ r' h
    · have hstep : bestStep maxIdx (b, sc, tg) r = (b, sc, tg) := by
        unfold bestStep
        rw [if_neg hsel]
      rw [hstep]
      rcases ih b sc tg hsc with
        ⟨heq, hall⟩ | ⟨l₁, rsel, l₂, hsplit, heq, hle, hlt, hl₁, hl₂⟩
      · refine Or.inl ⟨heq, ?_⟩
        intro r' hr'
        rcases List.mem_cons.mp hr' with h | h
        · subst h
          exact hsel
        · exact hall r' h
      · refine Or.inr ⟨r :: l₁, rsel, l₂, by simp [hsplit], heq, hle, hlt, ?_, hl₂⟩
        intro r' hr'
        rcases List.mem_cons.mp hr' with h | h
        · subst h
          intro hc
          have h1 : ¬ sc < rScore r' := fun hgt => hsel ⟨hc.1, hgt⟩
          have h2 := hc.2
          omega
        · exact hl₁ r' h

/-- The selection fold from the initial accumulator: either nothing is
selectable, or the first maximal eligible variant wins. -/
theorem bestFold_cases (maxIdx : Int) (rs : List Recipe) :
    (rs.foldl (bestStep maxIdx) (none, -1, none) = (none, -1, none)
      ∧ ∀ r ∈ rs, ¬(rScore r ≤ maxIdx ∧ -1 < rScore r))
    ∨ (∃ rsel,
        rsel ∈ rs
        ∧ rs.foldl (bestStep maxIdx) (none, -1, none)
            = (some rsel, rScore rsel, (recipeScoreTag rsel).2)
        ∧ 0 ≤ rScore rsel ∧ rScore rsel ≤ maxIdx
        ∧ ∀ r ∈ rs, rScore r ≤ maxIdx → rScore r ≤ rScore rsel) := by
  rcases bestFold_spec maxIdx rs none (-1) none le_rfl with
    ⟨heq, hall⟩ | ⟨l₁, rsel, l₂, hsplit, heq, hle, hlt, hl₁, hl₂⟩
  · exact Or.inl ⟨heq, hall⟩
  · refine Or.inr ⟨rsel, by rw [hsplit]; simp, heq, by omega, hle, ?_⟩
    intro r hr hrle
    rw [hsplit] at hr
    rcases List.mem_append.mp hr with h | h
    · by_contra hgt
      exact hl₁ r h ⟨hrle, le_of_lt (not_le.mp hgt)⟩
    · rcases List.mem_cons.mp h with h' | h'
      · rw [h']
      · by_contra hgt
        exact hl₂ r h' ⟨hrle, not_le.mp hgt⟩

/-- For a variant-list entry, the matched tag index of the query equals
the final score of the selection fold. -/
theorem matchedTagIdx_variants (recipes : Store) (item tier : String)
    (rs : List Recipe) (mi : Nat)
    (hstore : storeGet recipes item = some (.variants rs))
    (hidx : idxOf? tier tag_order = some mi) :
    matchedTagIdx recipes item tier
      = (rs.foldl (bestStep (mi : Int)) (none, -1, none)).2.1 := by
  rcases bestFold_cases (mi : Int) rs with ⟨heq, _⟩ | ⟨rsel, _, heq, hge0, _, _⟩
  · simp [matchedTagIdx, get_best_recipe, hstore, hidx, heq]
  · rcases recipeScoreTag_tag_spec rsel hge0 with ⟨t, ht, hidxt⟩
    simp [matchedTagIdx, get_best_recipe, hstore, hidx, heq, ht, hidxt, rScore]

/-- The final selection score is monotone in the tier bound. -/
theorem foldl_bestStep_score_monotone (rs : List Recipe) (m1 m2 : Int)
    (hm : m1 ≤ m2) :
    (rs.foldl (bestStep m1) (none, -1, none)).2.1
      ≤ (rs.foldl (bestStep m2) (none, -1, none)).2.1 := by
  rcases bestFold_cases m1 rs with ⟨heq1, _⟩ | ⟨r1, hr1, heq1, h01, hle1, _⟩
  · rcases bestFold_cases m2 rs with ⟨heq2, _⟩ | ⟨r2, _, heq2, h02, _, _⟩
    · rw [heq1, heq2]
    · rw [heq1, heq2]
      exact le_trans (by norm_num) h02
  · rcases bestFold_cases m2 rs with ⟨heq2, hall2⟩ | ⟨r2, _, heq2, _, _, hmax2⟩
    · exact absurd ⟨le_trans hle1 hm, by omega⟩ (hall2 r1 hr1)
    · rw [heq1, heq2]
      exact hmax2 r1 hr1 (le_trans hle1 hm)

end GTNH

namespace GTNH

/-- C6: for every item stored as a variant list and every recognized
tier, whenever some variant is eligible (its highest recognized tag
index is defined and at most the tier index), get_best_recipe returns
an eligible variant of maximal highest-tag index, and no earlier
variant in the collection attains that score (ties resolve to the first
encountered); and on the gear store the LV query matches the Any
variant while the MV query matches the Any-MV variant. -/
theorem claim_C6_best_variant :
    (∀ (recipes : Store) (item tier : String) (rs : List Recipe) (mi : Nat),
        storeGet recipes item = some (.variants rs) →
        idxOf? tier tag_order = some mi →
        (∃ r, r ∈ rs ∧ 0 ≤ rScore r ∧ rScore r ≤ (mi : Int)) →
        ∃ l₁ rsel l₂,
          rs = l₁ ++ rsel :: l₂
          ∧ get_best_recipe item recipes tier
              = Except.ok (some rsel, (recipeScoreTag rsel).2)
          ∧ 0 ≤ rScore rsel ∧ rScore rsel ≤ (mi : Int)
          ∧ (∀ r ∈ rs, rScore r ≤ (mi : Int) → rScore r ≤ rScore rsel)
          ∧ (∀ r ∈ l₁, rScore r ≤ (mi : Int) → rScore r < rScore rsel))
    ∧ get_best_recipe "gear" gearStore "LV"
        = Except.ok (some gearAnyVariant, some "Any")
    ∧ get_best_recipe "gear" gearStore "MV"
        = Except.ok (some gearMVVariant, some "MV") := by
  refine ⟨?_, by decide, by decide⟩
  intro recipes item tier rs mi hstore hidx hex
  rcases bestFold_spec (mi : Int) rs none (-1) none le_rfl with
    ⟨heq, hall⟩ | ⟨l₁, rsel, l₂, hsplit, heq, hle, hlt, hl₁, hl₂⟩
  · rcases hex with ⟨r, hr, h0, hrle⟩
    exact absurd ⟨hrle, by omega⟩ (hall r hr)
  · refine ⟨l₁, rsel, l₂, hsplit, ?_, by omega, hle, ?_, ?_⟩
    · simp [get_best_recipe, hstore, hidx, heq]
    · intro r hr hrle
      rw [hsplit] at hr
      rcases List.mem_append.mp hr with h | h
      · by_contra hgt
        exact hl₁ r h ⟨hrle, le_of_lt (not_le.mp hgt)⟩
      · rcases List.mem_cons.mp h with h' | h'
        · rw [h']
        · by_contra hgt
          exact hl₂ r h' ⟨hrle, not_le.mp hgt⟩
    · intro r hr hrle
      by_contra hgt
      exact hl₁ r hr ⟨hrle, not_lt.mp hgt⟩

/-- C6 witness: the general selection property instantiated on the gear
store at tier LV, whose index is 2. -/
theorem claim_C6_witness :
    ∃ l₁ rsel l₂,
      [gearAnyVariant, gearMVVariant] = l₁ ++ rsel :: l₂
      ∧ get_best_recipe "gear" gearStore "LV"
          = Except.ok (some rsel, (recipeScoreTag rsel).2)
      ∧ 0 ≤ rScore rsel ∧ rScore rsel ≤ ((2 : Nat) : Int)
      ∧ (∀ r ∈ [gearAnyVariant, gearMVVariant],
          rScore r ≤ ((2 : Nat) : Int) → rScore r ≤ rScore rsel)
      ∧ (∀ r ∈ l₁, rScore r ≤ ((2 : Nat) : Int) → rScore r < rScore rsel) :=
  claim_C6_best_variant.1 gearStore "gear" "LV" [gearAnyVariant, gearMVVariant] 2
    (by decide) (by decide) ⟨gearAnyVariant, by decide, by decide, by decide⟩

/-- C7: variant selection is monotone in the tier: for recognized tiers
t1 and t2 with the index of t1 at most the index of t2, the tier index
of the tag matched at t2 is at least the tier index of the tag matched
at t1, for every store and item. -/
theorem claim_C7_tier_monotone (recipes : Store) (item t1 t2 : String)
    (i1 i2 : Nat) (h1 : idxOf? t1 tag_order = some i1)
    (h2 : idxOf? t2 tag_order = some i2) (hle : i1 ≤ i2) :
    matchedTagIdx recipes item t1 ≤ matchedTagIdx recipes item t2 := by
  cases hstore : storeGet recipes item with
  | none => simp [matchedTagIdx, get_best_recipe, hstore]
  | some e =>
    cases e with
    | single r => simp [matchedTagIdx, get_best_recipe, hstore]
    | variants rs =>
      rw [matchedTagIdx_variants recipes item t1 rs i1 hstore h1,
        matchedTagIdx_variants recipes item t2 rs i2 hstore h2]
      exact foldl_bestStep_score_monotone rs (i1 : Int) (i2 : Int) (by omega)

/-- C7 witness: on the gear store, the matched tag index at LV is at
most the matched tag index at MV. -/
theorem claim_C7_witness :
    matchedTagIdx gearStore "gear" "LV" ≤ matchedTagIdx gearStore "gear" "MV" :=
  claim_C7_tier_monotone gearStore "gear" "LV" "MV" 2 3
    (by decide) (by decide) (by decide)

/-! Lemmas about quantity maps. -/

/-- Updating a key makes it look up to the new value. -/
theorem lookupOpt_setK_self (m : QMap) (k : Item) (v : Int) :
    lookupOpt (setK m k v) k = some v := by
  induction m with
  | nil => simp [setK, lookupOpt]
  | cons p rest ih =>
    by_cases h : p.1 = k
    · simp [setK, h, lookupOpt]
    · simp [setK, h, lookupOpt, ih]

/-- Updating a key leaves other keys unchanged. -/
theorem lookupOpt_setK_ne (m : QMap) (k : Item) (v : Int) (i : Item)
    (h : k ≠ i) :
    lookupOpt (setK m k v) i = lookupOpt m i := by
  induction m with
  | nil => simp [setK, lookupOpt, h]
  | cons p rest ih =>
    by_cases hp : p.1 = k
    · have hpi : p.1 ≠ i := fun he => h (hp.symm.trans he)
      simp only [setK, if_pos hp, lookupOpt, if_neg h, if_neg hpi]
    · simp only [setK, if_neg hp, lookupOpt]
      by_cases hpi : p.1 = i
      · rw [if_pos hpi, if_pos hpi]
      · rw [if_neg hpi, if_neg hpi, ih]

/-- Erasing a key leaves other keys unchanged. -/
theorem lookupOpt_eraseK_ne (m : QMap) (k : Item) (i : Item) (h : k ≠ i) :
    lookupOpt (eraseK m k) i = lookupOpt m i := by
  induction m with
  | nil => simp [eraseK]
  | cons p rest ih =>
    by_cases hp : p.1 = k
    · have hpi : p.1 ≠ i := fun he => h (hp.symm.trans he)
      simp only [eraseK, if_pos hp, lookupOpt, if_neg hpi]
    · simp only [eraseK, if_neg hp, lookupOpt]
      by_cases hpi : p.1 = i
      · rw [if_pos hpi, if_pos hpi]
      · rw [if_neg hpi, if_neg hpi, ih]

/-- A member of a setK result is a member of the original map or the
new binding. -/
theorem mem_setK (m : QMap) (k : Item) (v : Int) (p : Item × Int)
    (hp : p ∈ setK m k v) : p ∈ m ∨ p = (k, v) := by
  induction m with
  | nil =>
    simp [setK] at hp
    exact Or.inr hp
  | cons q rest ih =>
    by_cases h : q.1 = k
    · simp [setK, h] at hp
      rcases hp with hp | hp
      · exact Or.inr hp
      · exact Or.inl (List.mem_cons_of_mem q hp)
    · simp [setK, h] at hp
      rcases hp with hp | hp
      · exact Or.inl (by simp [hp])
      · rcases ih hp with h2 | h2
        · exact Or.inl (List.mem_cons_of_mem q h2)
        · exact Or.inr h2

/-- A key of a setK result is a key of the original map or the set key. -/
theorem mem_keys_setK (m : QMap) (k : Item) (v : Int) (i : Item)
    (hi : i ∈ (setK m k v).map Prod.fst) : i ∈ m.map Prod.fst ∨ i = k := by
  rcases List.mem_map.mp hi with ⟨p, hp, hpi⟩
  rcases mem_setK m k v p hp with h | h
  · exact Or.inl (hpi ▸ List.mem_map_of_mem Prod.fst h)
  · subst h
    exact Or.inr hpi.symm

/-- setK preserves key distinctness. -/
theorem nodup_keys_setK (m : QMap) (k : Item) (v : Int)
    (h : (m.map Prod.fst).Nodup) : ((setK m k v).map Prod.fst).Nodup := by
  induction m with
  | nil => simp [setK]
  | cons p rest ih =>
    simp only [List.map_cons, List.nodup_cons] at h
    by_cases hp : p.1 = k
    · simp only [setK, if_pos hp, List.map_cons, List.nodup_cons]
      rw [hp] at h
      exact h
    · simp only [setK, if_neg hp, List.map_cons, List.nodup_cons]
      refine ⟨?_, ih h.2⟩
      intro hc
      rcases mem_keys_setK rest k v p.1 hc with h2 | h2
      · exact h.1 h2
      · exact hp h2

/-- A key with a defined lookup is among the keys of the map. -/
theorem mem_keys_of_lookupOpt (m : QMap) (k : Item) (v : Int)
    (h : lookupOpt m k = some v) : k ∈ m.map Prod.fst := by
  induction m with
  | nil => simp [lookupOpt] at h
  | cons p rest ih =>
    by_cases hp : p.1 = k
    · simp [hp]
    · simp only [lookupOpt, if_neg hp] at h
      simp [ih h]

/-- The keys of an eraseK result are among the original keys. -/
theorem mem_keys_eraseK (m : QMap) (k : Item) (i : Item)
    (hi : i ∈ (eraseK m k).map Prod.fst) : i ∈ m.map Prod.fst := by
  induction m with
  | nil => simp [eraseK] at hi
  | cons p rest ih =>
    by_cases hp : p.1 = k
    · simp only [eraseK, if_pos hp] at hi
      simp [hi]
    · simp only [eraseK, if_neg hp, List.map_cons, List.mem_cons] at hi
      rcases hi with hi | hi
      · simp [hi]
      · simp [ih hi]

/-- eraseK preserves key distinctness. -/
theorem nodup_keys_eraseK (m : QMap) (k : Item)
    (h : (m.map Prod.fst).Nodup) : ((eraseK m k).map Prod.fst).Nodup := by
  induction m with
  | nil => simp [eraseK]
  | cons p rest ih =>
    simp only [List.map_cons, List.nodup_cons] at h
    by_cases hp : p.1 = k
    · simp only [eraseK, if_pos hp]
      exact h.2
    · simp only [eraseK, if_neg hp, List.map_cons, List.nodup_cons]
      exact ⟨fun hc => h.1 (mem_keys_eraseK rest k p.1 hc), ih h.2⟩

/-- With distinct keys, erasing a key removes it from lookup. -/
theorem lookupOpt_eraseK_self (m : QMap) (k : Item)
    (h : (m.map Prod.fst).Nodup) : lookupOpt (eraseK m k) k = none := by
  induction m with
  | nil => simp [eraseK, lookupOpt]
  | cons p rest ih =>
    simp only [List.map_cons, List.nodup_cons] at h
    by_cases hp : p.1 = k
    · simp only [eraseK, if_pos hp]
      cases hl : lookupOpt rest k with
      | none => rfl
      | some v => exact absurd (mem_keys_of_lookupOpt rest k v hl) (hp ▸ h.1)
    · simp only [eraseK, if_neg hp, lookupOpt, if_neg hp]
      exact ih h.2

/-- Setting a non-negative value on an all-non-negative map keeps every
entry non-negative. -/
theorem setK_nonneg (m : QMap) (k : Item) (v : Int)
    (hm : ∀ p ∈ m, 0 ≤ p.2) (hv : 0 ≤ v) :
    ∀ p ∈ setK m k v, 0 ≤ p.2 := by
  intro p hp
  rcases mem_setK m k v p hp with h | h
  · exact hm p h
  · rw [h]
    exact hv

/-- The raw-mode engine keeps every working-inventory entry
non-negative: each per-node deduction writes the max of 0 and the
depleted holding. -/
theorem runRaw_inv_nonneg (recipes : Store) (fuel : Nat) :
    ∀ (tasks : List (Item × Int)) (s : RawState),
      (∀ p ∈ s.inv, 0 ≤ p.2) →
      ∀ p ∈ (runRaw recipes fuel tasks s).inv, 0 ≤ p.2 := by
  induction fuel with
  | zero =>
    intro tasks s hs
    cases tasks with
    | nil => simpa [runRaw] using hs
    | cons hd rest => simpa [runRaw] using hs
  | succ fuel ih =>
    intro tasks s hs
    cases tasks with
    | nil => simpa [runRaw] using hs
    | cons hd rest =>
      obtain ⟨item, qty⟩ := hd
      have hset : ∀ p ∈ setK s.inv item (max 0 (lookupD s.inv item 0 - qty)),
          0 ≤ p.2 :=
        setK_nonneg _ _ _ hs (le_max_left 0 _)
      simp only [runRaw]
      cases hre : resolverEntry recipes item with
      | none => exact ih rest _ hset
      | some r =>
        dsimp only
        by_cases hraw : isRawEntry r = true
        · rw [if_pos hraw]
          exact ih rest _ hset
        · rw [if_neg hraw]
          exact ih rest _ (ih (childTasks r _) _ hset)

/-- The full-mode engine keeps every working-inventory entry
non-negative in the same way. -/
theorem runFull_inv_nonneg (recipes : Store) (fuel : Nat) :
    ∀ (tasks : List (Item × Int)) (s : FullState),
      (∀ p ∈ s.inv, 0 ≤ p.2) →
      ∀ p ∈ (runFull recipes fuel tasks s).inv, 0 ≤ p.2 := by
  induction fuel with
  | zero =>
    intro tasks s hs
    cases tasks with
    | nil => simpa [runFull] using hs
    | cons hd rest => simpa [runFull] using hs
  | succ fuel ih =>
    intro tasks s hs
    cases tasks with
    | nil => simpa [runFull] using hs
    | cons hd rest =>
      obtain ⟨item, qty⟩ := hd
      have hset : ∀ p ∈ setK s.inv item (max 0 (lookupD s.inv item 0 - qty)),
          0 ≤ p.2 :=
        setK_nonneg _ _ _ hs (le_max_left 0 _)
      simp only [runFull]
      by_cases hrem : max 0 (qty - lookupD s.inv item 0) = 0
      · rw [if_pos hrem]
        exact ih rest _ hset
      · rw [if_neg hrem]
        cases hre : resolverEntry recipes item with
        | none => exact ih rest _ hset
        | some r =>
          dsimp only
          by_cases hraw : isRawEntry r = true
          · rw [if_pos hraw]
            exact ih rest _ hset
          · rw [if_neg hraw]
            exact ih rest _ (ih (childTasks r _) _ hset)

end GTNH

namespace GTNH

/-- C8: throughout a resolution pass in either mode, started on an
inventory whose entries are all non-negative, every working-ledger
entry is non-negative in the resulting state; the proof maintains the
invariant across every per-node deduction, which writes the max of 0
and the depleted holding, for every fuel bound (hence at every
intermediate state of the unbounded recursion). -/
theorem claim_C8_inventory_nonneg (recipes : Store) (fuel : Nat)
    (name : Item) (qty : Int) (inventory : QMap)
    (h : ∀ p ∈ inventory, 0 ≤ p.2) :
    (∀ p ∈ (calculate_raw_materials recipes fuel name qty inventory).inv, 0 ≤ p.2)
    ∧ (∀ p ∈ (collect_components recipes fuel name qty inventory).inv, 0 ≤ p.2) :=
  ⟨runRaw_inv_nonneg recipes fuel [(name, qty)] _ h,
   runFull_inv_nonneg recipes fuel [(name, qty)] _ h⟩

/-- C8 witness: the plank store pass on the inventory holding 2 plank. -/
theorem claim_C8_witness :
    (∀ p ∈ (calculate_raw_materials plankStore 10 "plank" 10 [("plank", 2)]).inv,
      0 ≤ p.2)
    ∧ (∀ p ∈ (collect_components plankStore 10 "plank" 10 [("plank", 2)]).inv,
      0 ≤ p.2) :=
  claim_C8_inventory_nonneg plankStore 10 "plank" 10 [("plank", 2)] (by decide)

/-! Lemmas about the full-mode visited list and totals map. -/

/-- lookupD after a self set. -/
theorem lookupD_setK_self (m : QMap) (k : Item) (v : Int) (d : Int) :
    lookupD (setK m k v) k d = v := by
  unfold lookupD
  rw [lookupOpt_setK_self]
  rfl

/-- lookupD after a set of a different key. -/
theorem lookupD_setK_ne (m : QMap) (k : Item) (v : Int) (i : Item) (d : Int)
    (h : k ≠ i) : lookupD (setK m k v) i d = lookupD m i d := by
  unfold lookupD
  rw [lookupOpt_setK_ne m k v i h]

/-- Accumulating into a key keeps every defined lookup defined and
defines the accumulated key. -/
theorem lookupOpt_addK_ne_none (m : QMap) (k : Item) (v : Int) (i : Item)
    (h : lookupOpt m i ≠ none ∨ i = k) :
    lookupOpt (addK m k v) i ≠ none := by
  unfold addK
  by_cases hik : k = i
  · subst hik
    rw [lookupOpt_setK_self]
    simp
  · rw [lookupOpt_setK_ne m k _ i hik]
    rcases h with h | h
    · exact h
    · exact absurd h.symm hik

/-- The full-mode engine preserves the property that every visited item
has an entry in the totals map. -/
theorem runFull_visited_totals (recipes : Store) (fuel : Nat) :
    ∀ (tasks : List (Item × Int)) (s : FullState),
      (∀ i ∈ s.visited, lookupOpt s.totals i ≠ none) →
      ∀ i ∈ (runFull recipes fuel tasks s).visited,
        lookupOpt (runFull recipes fuel tasks s).totals i ≠ none := by
  induction fuel with
  | zero =>
    intro tasks s hs
    cases tasks with
    | nil => simpa [runFull] using hs
    | cons hd rest => simpa [runFull] using hs
  | succ fuel ih =>
    intro tasks s hs
    cases tasks with
    | nil => simpa [runFull] using hs
    | cons hd rest =>
      obtain ⟨item, qty⟩ := hd
      have hstep : ∀ i ∈ s.visited ++ [item],
          lookupOpt (addK s.totals item qty) i ≠ none := by
        intro i hi
        rcases List.mem_append.mp hi with hi | hi
        · exact lookupOpt_addK_ne_none s.totals item qty i (Or.inl (hs i hi))
        · exact lookupOpt_addK_ne_none s.totals item qty i
            (Or.inr (List.mem_singleton.mp hi))
      simp only [runFull]
      by_cases hrem : max 0 (qty - lookupD s.inv item 0) = 0
      · rw [if_pos hrem]
        exact ih rest _ hstep
      · rw [if_neg hrem]
        cases hre : resolverEntry recipes item with
        | none => exact ih rest _ hstep
        | some r =>
          dsimp only
          by_cases hraw : isRawEntry r = true
          · rw [if_pos hraw]
            exact ih rest _ hstep
          · rw [if_neg hraw]
            exact ih rest _ (ih (childTasks r _) _ hstep)

/-- The full-mode engine only appends to the visited list. -/
theorem runFull_visited_mono (recipes : Store) (fuel : Nat) :
    ∀ (tasks : List (Item × Int)) (s : FullState) (i : Item),
      i ∈ s.visited → i ∈ (runFull recipes fuel tasks s).visited := by
  induction fuel with
  | zero =>
    intro tasks s i hi
    cases tasks with
    | nil => simpa [runFull] using hi
    | cons hd rest => simpa [runFull] using hi
  | succ fuel ih =>
    intro tasks s i hi
    cases tasks with
    | nil => simpa [runFull] using hi
    | cons hd rest =>
      obtain ⟨item, qty⟩ := hd
      have hstep : i ∈ s.visited ++ [item] := List.mem_append_left _ hi
      simp only [runFull]
      by_cases hrem : max 0 (qty - lookupD s.inv item 0) = 0
      · rw [if_pos hrem]
        exact ih rest _ i hstep
      · rw [if_neg hrem]
        cases hre : resolverEntry recipes item with
        | none => exact ih rest _ i hstep
        | some r =>
          dsimp only
          by_cases hraw : isRawEntry r = true
          · rw [if_pos hraw]
            exact ih rest _ i hstep
          · rw [if_neg hraw]
            exact ih rest _ i (ih (childTasks r _) _ i hstep)

/-- With at least one unit of fuel, the head item of the worklist ends
up visited. -/
theorem runFull_head_visited (recipes : Store) (fuel : Nat) (item : Item)
    (qty : Int) (rest : List (Item × Int)) (s : FullState) :
    item ∈ (runFull recipes (fuel + 1) ((item, qty) :: rest) s).visited := by
  have hstep : item ∈ s.visited ++ [item] := List.mem_append_right _ (by simp)
  simp only [runFull]
  by_cases hrem : max 0 (qty - lookupD s.inv item 0) = 0
  · rw [if_pos hrem]
    exact runFull_visited_mono recipes fuel rest _ item hstep
  · rw [if_neg hrem]
    cases hre : resolverEntry recipes item with
    | none => exact runFull_visited_mono recipes fuel rest _ item hstep
    | some r =>
      dsimp only
      by_cases hraw : isRawEntry r = true
      · rw [if_pos hraw]
        exact runFull_visited_mono recipes fuel rest _ item hstep
      · rw [if_neg hraw]
        exact runFull_visited_mono recipes fuel rest _ item
          (runFull_visited_mono recipes fuel (childTasks r _) _ item hstep)

end GTNH

namespace GTNH

/-- C3 amended: the full-mode aggregate contains an entry for every
visited item, and the root item itself is among the visited items (and
hence carries an entry) whenever the pass performs at least one step;
the original claim fails because collect_components records the root
demand before any early return. -/
theorem claim_C3_amended (recipes : Store) (fuel : Nat) (name : Item)
    (qty : Int) (inventory : QMap) :
    (∀ i ∈ (collect_components recipes fuel name qty inventory).visited,
        lookupOpt (collect_components recipes fuel name qty inventory).totals i
          ≠ none)
    ∧ (1 ≤ fuel →
        name ∈ (collect_components recipes fuel name qty inventory).visited) := by
  constructor
  · exact runFull_visited_totals recipes fuel [(name, qty)] _ (by simp)
  · intro hfuel
    obtain ⟨fuel', rfl⟩ : ∃ fuel', fuel = fuel' + 1 :=
      ⟨fuel - 1, by omega⟩
    exact runFull_head_visited recipes fuel' name qty [] _

/-- C3 amended witness: the plank full-mode pass visits the root and
every visited item has a totals entry. -/
theorem claim_C3_amended_witness :
    (∀ i ∈ (collect_components plankStore 10 "plank" 10 []).visited,
        lookupOpt (collect_components plankStore 10 "plank" 10 []).totals i
          ≠ none)
    ∧ ((1 : Nat) ≤ 10 →
        "plank" ∈ (collect_components plankStore 10 "plank" 10 []).visited) :=
  claim_C3_amended plankStore 10 "plank" 10 []

/-- On the cyclic store with a unit of unsatisfied demand, the
raw-mode recursion exhausts any fuel bound whichever of the two items
it starts from, provided the working ledger holds none of either: the
traversal alternates between the two items forever. -/
theorem cycle_run_diverges_aux :
    ∀ (fuel : Nat) (s : RawState),
      lookupD s.inv "A" 0 = 0 → lookupD s.inv "B" 0 = 0 →
      (runRaw cycleStore fuel [("A", 1)] s).ok = false
      ∧ (runRaw cycleStore fuel [("B", 1)] s).ok = false := by
  intro fuel
  induction fuel with
  | zero =>
    intro s hA hB
    constructor <;> simp [runRaw]
  | succ fuel ih =>
    intro s hA hB
    constructor
    · have e1 : resolverEntry cycleStore "A" = some cycleRecipeA := by decide
      simp only [runRaw, e1]
      rw [if_neg (by decide : ¬ isRawEntry cycleRecipeA = true)]
      rw [hA]
      refine (ih _ ?_ ?_).2
      · rw [lookupD_setK_self]
        decide
      · rw [lookupD_setK_ne _ _ _ _ _ (by decide)]
        exact hB
    · have e1 : resolverEntry cycleStore "B" = some cycleRecipeB := by decide
      simp only [runRaw, e1]
      rw [if_neg (by decide : ¬ isRawEntry cycleRecipeB = true)]
      rw [hB]
      refine (ih _ ?_ ?_).1
      · rw [lookupD_setK_ne _ _ _ _ _ (by decide)]
        exact hA
      · rw [lookupD_setK_self]
        decide

end GTNH

namespace GTNH

/-- C5: the resolution pass of logic.py has no cycle protection: on the
store where A requires B and B requires A, with demand 1 and an empty
inventory, the recursion never completes within any fuel bound (the ok
flag is false for every fuel), which models the unbounded mutual
recursion of the Python source; no CycleDetected error exists anywhere
in the code, so the required behavior is absent. -/
theorem claim_C5_cycle_never_completes :
    ∀ fuel : Nat, (calculate_raw_materials cycleStore fuel "A" 1 []).ok = false := by
  intro fuel
  exact (cycle_run_diverges_aux fuel { raw := [], inv := [], ok := true }
    (by decide) (by decide)).1

/-! Lemmas for the craft-commit transaction. -/

/-- A key outside the key list looks up to none. -/
theorem lookupOpt_not_mem_keys (m : QMap) (x : Item)
    (h : x ∉ m.map Prod.fst) : lookupOpt m x = none := by
  cases hl : lookupOpt m x with
  | none => rfl
  | some v => exact absurd (mem_keys_of_lookupOpt m x v hl) h

/-- lookupD at the head key of a cons. -/
theorem lookupD_cons_self (p : Item × Int) (ps : QMap) :
    lookupD (p :: ps) p.1 0 = p.2 := by
  unfold lookupD lookupOpt
  rw [if_pos rfl]
  rfl

/-- lookupD past a head with a different key. -/
theorem lookupD_cons_ne (p : Item × Int) (ps : QMap) (x : Item)
    (h : p.1 ≠ x) : lookupD (p :: ps) x 0 = lookupD ps x 0 := by
  have hl : lookupOpt (p :: ps) x = lookupOpt ps x := by
    show (if p.1 = x then some p.2 else lookupOpt ps x) = lookupOpt ps x
    rw [if_neg h]
  unfold lookupD
  rw [hl]

/-- Ceiling division covers the dividend for a positive divisor. -/
theorem ceilDivQ_mul_ge (a b : Int) (hb : 1 ≤ b) : a ≤ ceilDivQ a b * b := by
  unfold ceilDivQ
  have hne : b ≠ 0 := by omega
  have h1 := Int.ediv_add_emod (-a) b
  have h2 := Int.emod_nonneg (-a) hne
  nlinarith [h1, h2]

/-- Ceiling division of positive by positive is positive. -/
theorem ceilDivQ_pos (a b : Int) (ha : 1 ≤ a) (hb : 1 ≤ b) :
    1 ≤ ceilDivQ a b := by
  by_contra h
  push_neg at h
  have h2 := ceilDivQ_mul_ge a b hb
  nlinarith

/-- Every short requirement appears in the shortfall report with its
needed and available amounts. -/
theorem shortfalls_mem (required : QMap) (inventory : QMap) (p : Item × Int)
    (hp : p ∈ required) (hlt : lookupD inventory p.1 0 < p.2) :
    (p.1, p.2, lookupD inventory p.1 0) ∈ shortfalls required inventory := by
  unfold shortfalls
  exact List.mem_map.mpr ⟨p, List.mem_filter.mpr ⟨hp, decide_eq_true hlt⟩, rfl⟩

/-- With every requirement covered, the shortfall report is empty. -/
theorem shortfalls_eq_nil (required inventory : QMap)
    (h : ∀ p ∈ required, p.2 ≤ lookupD inventory p.1 0) :
    shortfalls required inventory = [] := by
  unfold shortfalls
  have hf : required.filter (fun p => lookupD inventory p.1 0 < p.2) = [] :=
    List.filter_eq_nil_iff.mpr (fun p hp => by
      simp only [decide_eq_true_eq]
      exact not_lt.mpr (h p hp))
  rw [hf]
  rfl

/-- The deduction loop of craft_item: with distinct inventory keys,
distinct positive requirements, and a sufficient ledger, it succeeds
and every key ends at its holding minus its requirement. -/
theorem deduct_fold_spec (req : QMap) :
    ∀ (inv : QMap),
      (inv.map Prod.fst).Nodup →
      (req.map Prod.fst).Nodup →
      (∀ p ∈ req, 1 ≤ p.2) →
      (∀ p ∈ req, p.2 ≤ lookupD inv p.1 0) →
      ∃ inv1, req.foldlM deductOne inv = some inv1
        ∧ (inv1.map Prod.fst).Nodup
        ∧ ∀ x, lookupD inv1 x 0 = lookupD inv x 0 - lookupD req x 0 := by
  induction req with
  | nil =>
    intro inv hninv _ _ _
    refine ⟨inv, rfl, hninv, ?_⟩
    intro x
    simp [lookupD, lookupOpt]
  | cons p ps ih =>
    intro inv hninv hnreq hpos hsuff
    have hv1 : 1 ≤ p.2 := hpos p (List.mem_cons_self p ps)
    have hsp : p.2 ≤ lookupD inv p.1 0 := hsuff p (List.mem_cons_self p ps)
    obtain ⟨hv, hl⟩ : ∃ hv, lookupOpt inv p.1 = some hv := by
      cases hl : lookupOpt inv p.1 with
      | none =>
        exfalso
        rw [lookupD, hl] at hsp
        simp at hsp
        omega
      | some hv => exact ⟨hv, rfl⟩
    have hvD : lookupD inv p.1 0 = hv := by
      rw [lookupD, hl]
      rfl
    have hsp2 : p.2 ≤ hv := hvD ▸ hsp
    have hstep : deductOne inv p
        = some (if hv - p.2 ≤ 0 then eraseK inv p.1 else setK inv p.1 (hv - p.2)) := by
      simp only [deductOne, hl]
    set inv' := if hv - p.2 ≤ 0 then eraseK inv p.1 else setK inv p.1 (hv - p.2)
      with hinv'
    have hself : lookupD inv' p.1 0 = hv - p.2 := by
      rw [hinv']
      by_cases hz : hv - p.2 ≤ 0
      · rw [if_pos hz]
        unfold lookupD
        rw [lookupOpt_eraseK_self inv p.1 hninv]
        simp only [Option.getD_none]
        omega
      · rw [if_neg hz, lookupD_setK_self]
    have hne : ∀ x, x ≠ p.1 → lookupD inv' x 0 = lookupD inv x 0 := by
      intro x hx
      rw [hinv']
      by_cases hz : hv - p.2 ≤ 0
      · rw [if_pos hz]
        unfold lookupD
        rw [lookupOpt_eraseK_ne inv p.1 x (fun he => hx he.symm)]
      · rw [if_neg hz]
        exact lookupD_setK_ne inv p.1 _ x 0 (fun he => hx he.symm)
    have hnod' : (inv'.map Prod.fst).Nodup := by
      rw [hinv']
      by_cases hz : hv - p.2 ≤ 0
      · rw [if_pos hz]
        exact nodup_keys_eraseK inv p.1 hninv
      · rw [if_neg hz]
        exact nodup_keys_setK inv p.1 _ hninv
    have hnps : (ps.map Prod.fst).Nodup ∧ p.1 ∉ ps.map Prod.fst := by
      simp only [List.map_cons, List.nodup_cons] at hnreq
      exact ⟨hnreq.2, hnreq.1⟩
    have hsuff2 : ∀ q ∈ ps, q.2 ≤ lookupD inv' q.1 0 := by
      intro q hq
      have hqne : q.1 ≠ p.1 :=
        fun he => hnps.2 (he ▸ List.mem_map_of_mem Prod.fst hq)
      rw [hne q.1 hqne]
      exact hsuff q (List.mem_cons_of_mem p hq)
    obtain ⟨inv1, hfold, hn1, hlook⟩ :=
      ih inv' hnod' hnps.1 (fun q hq => hpos q (List.mem_cons_of_mem p hq)) hsuff2
    refine ⟨inv1, ?_, hn1, ?_⟩
    · rw [List.foldlM_cons, hstep]
      simpa using hfold
    · intro x
      by_cases hx : x = p.1
      · subst hx
        rw [hlook p.1]
        have h0 : lookupD ps p.1 0 = 0 := by
          unfold lookupD
          rw [lookupOpt_not_mem_keys ps p.1 hnps.2]
          rfl
        rw [hself, h0, lookupD_cons_self, hvD]
        ring
      · rw [hlook x, hne x hx, lookupD_cons_ne p ps x (fun he => hx he.symm)]

/-- The crediting loop of craft_item: with distinct output keys, every
key ends at its holding plus its scaled output quantity. -/
theorem credit_fold_spec (outs : QMap) :
    ∀ (crafts : Int) (inv : QMap),
      (outs.map Prod.fst).Nodup →
      ∀ x, lookupD (creditOutputs outs crafts inv) x 0
        = lookupD inv x 0 + lookupD outs x 0 * crafts := by
  induction outs with
  | nil =>
    intro crafts inv _ x
    show lookupD inv x 0 = lookupD inv x 0 + lookupD [] x 0 * crafts
    simp [lookupD, lookupOpt]
  | cons p ps ih =>
    intro crafts inv hnd x
    simp only [List.map_cons, List.nodup_cons] at hnd
    have hstep := ih crafts (setK inv p.1 (lookupD inv p.1 0 + p.2 * crafts)) hnd.2 x
    have hfirst : creditOutputs (p :: ps) crafts inv
        = creditOutputs ps crafts (setK inv p.1 (lookupD inv p.1 0 + p.2 * crafts)) :=
      rfl
    rw [hfirst, hstep]
    by_cases hx : p.1 = x
    · subst hx
      rw [lookupD_setK_self, lookupD_cons_self]
      have h0 : lookupD ps p.1 0 = 0 := by
        unfold lookupD
        rw [lookupOpt_not_mem_keys ps p.1 hnd.1]
        rfl
      rw [h0]
      ring
    · rw [lookupD_setK_ne inv p.1 _ x 0 hx, lookupD_cons_ne p ps x hx]

end GTNH

namespace GTNH

/-- C4: craft commit is an all-or-nothing ledger transaction.  Under
the data-model well-formedness assumptions (a positive requested
quantity, positive input quantities, distinct dict keys, the item
declared among the recipe outputs with positive output count, and a
variant carrying the selected tag), either some scaled input exceeds
its holding, and then craft_item returns the failure report listing
every short item with its needed and available amounts and produces no
new ledger (the Python code returns before any mutation), or no input
is short, and then it returns a ledger in which every key holds its old
quantity minus its scaled input requirement plus its scaled declared
output, all outputs credited by the same craft multiplier. -/
theorem claim_C4_craft_atomic (recipes : Store) (inventory : QMap)
    (item : Item) (qty : Int) (tag : String) (e : Entry) (recipe : Recipe)
    (outputCount : Int)
    (hstore : storeGet recipes item = some e)
    (hfind : (entryVariants e).find? (fun r => (r.tags.getD []).contains tag)
      = some recipe)
    (hout : lookupOpt recipe.outputs item = some outputCount)
    (hoc : 1 ≤ outputCount) (hqty : 1 ≤ qty)
    (hinv_nodup : (inventory.map Prod.fst).Nodup)
    (hreq_nodup : ((requiredOf recipe (ceilDivQ qty outputCount)).map Prod.fst).Nodup)
    (hout_nodup : (recipe.outputs.map Prod.fst).Nodup)
    (hpos : ∀ p ∈ effInputs recipe, ¬ underscored p.1 → 1 ≤ p.2) :
    ((∃ p ∈ requiredOf recipe (ceilDivQ qty outputCount),
        lookupD inventory p.1 0 < p.2) →
      craft_item recipes inventory item qty tag
        = CraftResult.missing
            (shortfalls (requiredOf recipe (ceilDivQ qty outputCount)) inventory)
      ∧ ∀ p ∈ requiredOf recipe (ceilDivQ qty outputCount),
          lookupD inventory p.1 0 < p.2 →
          (p.1, p.2, lookupD inventory p.1 0)
            ∈ shortfalls (requiredOf recipe (ceilDivQ qty outputCount)) inventory)
    ∧ ((∀ p ∈ requiredOf recipe (ceilDivQ qty outputCount),
          p.2 ≤ lookupD inventory p.1 0) →
      ∃ inv2, craft_item recipes inventory item qty tag = CraftResult.ok inv2
        ∧ ∀ x, lookupD inv2 x 0
            = lookupD inventory x 0
              - lookupD (requiredOf recipe (ceilDivQ qty outputCount)) x 0
              + lookupD recipe.outputs x 0 * ceilDivQ qty outputCount) := by
  constructor
  · intro hex
    obtain ⟨p, hp, hlt⟩ := hex
    have hne : shortfalls (requiredOf recipe (ceilDivQ qty outputCount)) inventory
        ≠ [] :=
      List.ne_nil_of_mem (shortfalls_mem _ _ p hp hlt)
    constructor
    · simp only [craft_item, hstore, hfind, hout]
      rw [if_pos hne]
    · intro q hq hqlt
      exact shortfalls_mem _ _ q hq hqlt
  · intro hsuff
    have hcrafts : 1 ≤ ceilDivQ qty outputCount := ceilDivQ_pos qty outputCount hqty hoc
    have hpos_req : ∀ p ∈ requiredOf recipe (ceilDivQ qty outputCount), 1 ≤ p.2 := by
      intro p hp
      unfold requiredOf childTasks at hp
      rcases List.mem_map.mp hp with ⟨q, hq, hqe⟩
      rcases List.mem_filter.mp hq with ⟨hq1, hq2⟩
      have hq2n : ¬ underscored q.1 := by simpa using hq2
      have hq3 := hpos q hq1 hq2n
      rw [← hqe]
      dsimp only
      nlinarith
    obtain ⟨inv1, hfold, hn1, hlook⟩ :=
      deduct_fold_spec (requiredOf recipe (ceilDivQ qty outputCount)) inventory
        hinv_nodup hreq_nodup hpos_req hsuff
    have hnil : shortfalls (requiredOf recipe (ceilDivQ qty outputCount)) inventory
        = [] := shortfalls_eq_nil _ _ hsuff
    refine ⟨creditOutputs recipe.outputs (ceilDivQ qty outputCount) inv1, ?_, ?_⟩
    · simp only [craft_item, hstore, hfind, hout]
      rw [if_neg (by simp [hnil])]
      rw [hfold]
    · intro x
      rw [credit_fold_spec recipe.outputs (ceilDivQ qty outputCount) inv1
        hout_nodup x, hlook x]

/-- C4 witness: the commit at the plank store with one log in stock and
ten planks requested, which is short two logs; the theorem applied at
this input also covers the success branch vacuously instantiated. -/
theorem claim_C4_witness :
    ((∃ p ∈ requiredOf plankRecipe (ceilDivQ 10 4),
        lookupD [("log", 1)] p.1 0 < p.2) →
      craft_item plankStore [("log", 1)] "plank" 10 "Any"
        = CraftResult.missing
            (shortfalls (requiredOf plankRecipe (ceilDivQ 10 4)) [("log", 1)])
      ∧ ∀ p ∈ requiredOf plankRecipe (ceilDivQ 10 4),
          lookupD [("log", 1)] p.1 0 < p.2 →
          (p.1, p.2, lookupD [("log", 1)] p.1 0)
            ∈ shortfalls (requiredOf plankRecipe (ceilDivQ 10 4)) [("log", 1)])
    ∧ ((∀ p ∈ requiredOf plankRecipe (ceilDivQ 10 4),
          p.2 ≤ lookupD [("log", 1)] p.1 0) →
      ∃ inv2, craft_item plankStore [("log", 1)] "plank" 10 "Any"
          = CraftResult.ok inv2
        ∧ ∀ x, lookupD inv2 x 0
            = lookupD [("log", 1)] x 0
              - lookupD (requiredOf plankRecipe (ceilDivQ 10 4)) x 0
              + lookupD plankRecipe.outputs x 0 * ceilDivQ 10 4) :=
  claim_C4_craft_atomic plankStore [("log", 1)] "plank" 10 "Any"
    (.single plankRecipe) plankRecipe 4 (by decide) (by decide) (by decide)
    (by decide) (by decide) (by decide) (by decide) (by decide) (by decide)

end GTNH
